import Mathlib

/-!
Shallow embedding of the chart parser and CYK parser of `nlp.py`
(aima-python, "A chart parser and some grammars", Chapter 22).

Python edges are 5-element lists `[start, end, lhs, found, expects]` whose
`found` entries are either `(category, word)` pairs (added by the scanner) or
completed edges (appended by the extender); equality is structural.  The
mutually recursive `add_edge` / `predictor` / `extender` calls of the source
need not terminate (cyclic grammars), so every recursive parser function below
takes an explicit fuel argument; running out of fuel truncates the run, and the
invariant theorems are proved for every fuel.
-/

namespace NLP

/-- An entry of an edge's `found` list: a `(category, word)` terminal match, or
a completed sub-edge (its five fields inlined). -/
inductive Item : Type where
  | term (cat word : String)
  | sub (start fin : Nat) (lhs : String) (found : List Item) (expects : List String)

mutual

/-- Structural (Python `==`) equality on items is decidable. -/
def Item.decEq : (a b : Item) → Decidable (a = b)
  | .term c w, .term c' w' =>
    if h1 : c = c' then
      if h2 : w = w' then .isTrue (by rw [h1, h2])
      else .isFalse (by intro h; injection h with _ hw; exact h2 hw)
    else .isFalse (by intro h; injection h with hc _; exact h1 hc)
  | .term _ _, .sub _ _ _ _ _ => .isFalse (fun h => Item.noConfusion h)
  | .sub _ _ _ _ _, .term _ _ => .isFalse (fun h => Item.noConfusion h)
  | .sub s f l fnd ex, .sub s' f' l' fnd' ex' =>
    if h1 : s = s' then
      if h2 : f = f' then
        if h3 : l = l' then
          match Item.decEqList fnd fnd' with
          | .isTrue h4 =>
            if h5 : ex = ex' then .isTrue (by rw [h1, h2, h3, h4, h5])
            else .isFalse (by intro h; injection h; exact h5 (by assumption))
          | .isFalse h4 => .isFalse (by intro h; injection h; exact h4 (by assumption))
        else .isFalse (by intro h; injection h; exact h3 (by assumption))
      else .isFalse (by intro h; injection h; exact h2 (by assumption))
    else .isFalse (by intro h; injection h; exact h1 (by assumption))
  termination_by structural a => a

/-- Structural equality on item lists is decidable. -/
def Item.decEqList : (a b : List Item) → Decidable (a = b)
  | [], [] => .isTrue rfl
  | [], _ :: _ => .isFalse (fun h => List.noConfusion h)
  | _ :: _, [] => .isFalse (fun h => List.noConfusion h)
  | x :: xs, y :: ys =>
    match Item.decEq x y, Item.decEqList xs ys with
    | .isTrue h1, .isTrue h2 => .isTrue (by rw [h1, h2])
    | .isFalse h1, _ => .isFalse (by intro h; injection h; exact h1 (by assumption))
    | _, .isFalse h2 => .isFalse (by intro h; injection h; exact h2 (by assumption))
  termination_by structural a => a

end

instance : DecidableEq Item := Item.decEq

/-- An edge `[start, end, lhs, found, expects]` of the chart (`end` is a Lean
keyword, so the field is called `fin`). -/
structure Edge : Type where
  start : Nat
  fin : Nat
  lhs : String
  found : List Item
  expects : List String
deriving DecidableEq

/-- A completed edge, as it is appended to another edge's `found` list by the
extender (`alpha + [edge]` in the source). -/
def Edge.toItem (e : Edge) : Item :=
  .sub e.start e.fin e.lhs e.found e.expects

/-- `Grammar.__init__`: a grammar has a set of rules and a lexicon (Python
dicts, modelled as association lists with unique keys). -/
structure Grammar : Type where
  name : String
  rules : List (String × List (List String))
  lexicon : List (String × List String)

/-- Dictionary lookup with default `[]` (reading a `defaultdict(list)` without
mutating it, and `dict.get(k, ())`-style access). -/
def lookupD (m : List (String × List String)) (k : String) : List String :=
  match m.find? (fun p => p.1 == k) with
  | some p => p.2
  | none => []

/-- One step of building `categories`: `self.categories[word].append(lhs)` on a
`defaultdict(list)` (append to the entry, creating it first when missing). -/
def dict_append (m : List (String × List String)) (k v : String) :
    List (String × List String) :=
  if m.any (fun p => p.1 == k) then
    m.map (fun p => if p.1 == k then (p.1, p.2 ++ [v]) else p)
  else m ++ [(k, [v])]

/-- The loop in `Grammar.__init__`:
`for lhs in lexicon: for word in lexicon[lhs]: self.categories[word].append(lhs)`. -/
def build_categories (lexicon : List (String × List String)) :
    List (String × List String) :=
  lexicon.foldl (fun m p => p.2.foldl (fun m w => dict_append m w p.1) m) []

/-- The `categories` index as built once at construction. -/
def Grammar.categories (g : Grammar) : List (String × List String) :=
  build_categories g.lexicon

/-- `Grammar.rewrites_for`: `self.rules.get(cat, ())`. -/
def Grammar.rewrites_for (g : Grammar) (cat : String) : List (List String) :=
  match g.rules.find? (fun p => p.1 == cat) with
  | some p => p.2
  | none => []

/-- `Grammar.isa`: `cat in self.categories[word]` (the pure result of the
lookup; the `defaultdict` mutation it performs is modelled by `isaSt` below). -/
def Grammar.isa (g : Grammar) (word cat : String) : Bool :=
  (lookupD g.categories word).contains cat

/-- `self.chart[i]` holds the edges that end just before the `i`'th word. -/
abbrev Chart : Type := List (List Edge)

/-- Row read `self.chart[k]` (out-of-range reads yield `[]`; the source never
indexes out of range during a parse). -/
def getRow (chart : Chart) (k : Nat) : List Edge :=
  chart.getD k []

/-- Replace row `k` (an in-place `append` to `self.chart[k]` is modelled as
rewriting the row). -/
def setRow (chart : Chart) (k : Nat) (row : List Edge) : Chart :=
  chart.set k row

mutual

/-- `Chart.add_edge`: if the edge is not yet in `chart[edge.end]`, append it,
then dispatch: complete edges run the extender, active ones the predictor
(the predictor's body `if B in rules: for rhs in rewrites_for(B)` is inlined). -/
def add_edge (g : Grammar) : Nat → Chart → Edge → Chart
  | 0, chart, _ => chart
  | fuel+1, chart, e =>
    if e ∈ getRow chart e.fin then chart
    else
      let chart1 := setRow chart e.fin (getRow chart e.fin ++ [e])
      match e.expects with
      | [] => extender_loop g fuel e 0 chart1
      | b :: _ =>
        if g.rules.any (fun p => p.1 == b) then
          predictor_loop g fuel e.fin b (g.rewrites_for b) chart1
        else chart1
  termination_by structural fuel chart e => fuel

/-- `Chart.extender`'s loop `for (i, j, A, alpha, B1b) in self.chart[j]`,
iterated by index because Python iterates the list live while `add_edge` may
append to it (when the completed edge has zero width). -/
def extender_loop (g : Grammar) : Nat → Edge → Nat → Chart → Chart
  | 0, _, _, chart => chart
  | fuel+1, e, idx, chart =>
    match (getRow chart e.start).get? idx with
    | none => chart
    | some a =>
      let chart2 :=
        match a.expects with
        | [] => chart
        | b :: rest =>
          if b = e.lhs then
            add_edge g fuel chart ⟨a.start, e.fin, a.lhs, a.found ++ [e.toItem], rest⟩
          else chart
      extender_loop g fuel e (idx+1) chart2
  termination_by structural fuel e idx chart => fuel

/-- `Chart.predictor`'s loop `for rhs in self.grammar.rewrites_for(B)`:
add a zero-width active edge `[j, j, B, [], rhs]` for each alternative. -/
def predictor_loop (g : Grammar) : Nat → Nat → String → List (List String) → Chart → Chart
  | 0, _, _, _, chart => chart
  | _+1, _, _, [], chart => chart
  | fuel+1, j, b, rhs :: rest, chart =>
    predictor_loop g fuel j b rest (add_edge g fuel chart ⟨j, j, b, [], rhs⟩)
  termination_by structural fuel j b l chart => fuel

end

/-- `Chart.scanner`'s loop `for (i, j, A, alpha, Bb) in self.chart[j]`,
iterated by index (live, like the extender's loop). -/
def scanner_loop (g : Grammar) : Nat → Nat → String → Nat → Chart → Chart
  | 0, _, _, _, chart => chart
  | fuel+1, j, word, idx, chart =>
    match (getRow chart j).get? idx with
    | none => chart
    | some a =>
      let chart2 :=
        match a.expects with
        | [] => chart
        | b :: rest =>
          if g.isa word b then
            add_edge g fuel chart ⟨a.start, j+1, a.lhs, a.found ++ [Item.term b word], rest⟩
          else chart
      scanner_loop g fuel j word (idx+1) chart2
  termination_by structural fuel j word idx chart => fuel

/-- `Chart.scanner`: for each edge expecting a word of this category here,
extend the edge. -/
def scanner (g : Grammar) (fuel : Nat) (j : Nat) (word : String) (chart : Chart) : Chart :=
  scanner_loop g fuel j word 0 chart

/-- The synthetic root edge `[0, 0, 'S_', [], [S]]`. -/
def seed (S : String) : Edge :=
  ⟨0, 0, "S_", [], [S]⟩

/-- The loop `for i in range(len(words)): self.scanner(i, words[i])`. -/
def scan_all (g : Grammar) (fuel : Nat) : List String → Nat → Chart → Chart
  | [], _, chart => chart
  | w :: ws, j, chart => scan_all g fuel ws (j+1) (scanner g fuel j w chart)

/-- `Chart.parse`: fresh chart of `len(words)+1` empty rows, seed edge, then
scan each word left to right. -/
def parse (g : Grammar) (fuel : Nat) (words : List String) (S : String) : Chart :=
  scan_all g fuel words 0 (add_edge g fuel (List.replicate (words.length + 1) []) (seed S))

/-- The comprehension filter of `Chart.parses`:
`i == 0 and lhs == S and expects == []`. -/
def complete_filter (S : String) (e : Edge) : Bool :=
  (e.start == 0) && (e.lhs == S) && e.expects.isEmpty

/-- The comprehension of `Chart.parses`: rebuild `[i, j, S, found, []]` for
every matching edge of `chart[len(words)]`. -/
def extract_parses (chart : Chart) (n : Nat) (S : String) : List Edge :=
  ((getRow chart n).filter (complete_filter S)).map
    (fun e => ⟨e.start, e.fin, S, e.found, []⟩)

/-- `Chart.parses` on an already-tokenized word list. -/
def parses (g : Grammar) (fuel : Nat) (words : List String) (S : String) : List Edge :=
  extract_parses (parse g fuel words S) words.length S

/-! ### Soundness predicates (for C1)

An edge `[i, j, lhs, found, expects]` is sound when its `found` items chain
contiguously from `i` to `j`, each terminal item is licensed by the lexicon and
matches the input word at its position, each sub-edge is a complete sound edge
whose child signature is a grammar right-hand side, and the edge's own
signature (symbols of `found`, then `expects`) is a right-hand side of `lhs`.
The seed edge's synthetic step `'S_' → [S]` is not a grammar rule; `allowSeed`
selects whether it is admitted. -/

/-- The grammar symbol an item was matched against: the category of a terminal
match, the `lhs` of a completed sub-edge. -/
def symOf : Item → String
  | .term c _ => c
  | .sub _ _ l _ _ => l

/-- The signature of a `found` list: the matched symbols, left to right. -/
def sigOf (l : List Item) : List String :=
  l.map symOf

/-- The signature `sig` is a legal decomposition of `lhs`: one of the grammar's
right-hand sides for `lhs`, or (when `allowSeed`) the seed step `'S_' → [S]`. -/
def sigOk (g : Grammar) (allowSeed : Bool) (S lhs : String) (sig : List String) : Bool :=
  (g.rewrites_for lhs).contains sig || (allowSeed && lhs == "S_" && sig == [S])

/-- The input position an item ends at, given the position it starts at: a
terminal match covers one word; a sub-edge carries its own end. -/
def Item.endAt : Item → Nat → Nat
  | .term _ _, a => a + 1
  | .sub _ f _ _ _, _ => f

mutual

/-- The item soundly covers `[a, b)`: a terminal match is lexicon-licensed and
equals the input word at `a`; a sub-edge is a complete edge on exactly this
span whose own `found` chain is sound and whose signature is legal. -/
def itemOk (g : Grammar) (allowSeed : Bool) (words : List String) (S : String) :
    Item → Nat → Nat → Bool
  | .term c w, a, b =>
      (b == a + 1) && (words.get? a == some w) && g.isa w c
  | .sub s f l fnd ex, a, b =>
      (s == a) && (f == b) && ex.isEmpty && sigOk g allowSeed S l (sigOf fnd) &&
        foundOk g allowSeed words S fnd s f
  termination_by structural i _ _ => i

/-- The items chain contiguously from position `a` to position `b`, each one
sound on its own span. -/
def foundOk (g : Grammar) (allowSeed : Bool) (words : List String) (S : String) :
    List Item → Nat → Nat → Bool
  | [], a, b => a == b
  | i :: is, a, b =>
      itemOk g allowSeed words S i a (i.endAt a) &&
        foundOk g allowSeed words S is (i.endAt a) b
  termination_by structural l _ _ => l

end

/-- A sound edge: its signature is a legal decomposition of its `lhs` and its
`found` items chain soundly over its span. -/
def edgeOk (g : Grammar) (allowSeed : Bool) (words : List String) (S : String) (e : Edge) : Bool :=
  sigOk g allowSeed S e.lhs (sigOf e.found ++ e.expects) &&
    foundOk g allowSeed words S e.found e.start e.fin

mutual

/-- The terminal leaves of one item, read left to right. -/
def Item.leaves : Item → List String
  | .term _ w => [w]
  | .sub _ _ _ fnd _ => leavesList fnd
  termination_by structural i => i

/-- The terminal leaves of a `found` list, read left to right. -/
def leavesList : List Item → List String
  | [] => []
  | i :: is => i.leaves ++ leavesList is
  termination_by structural l => l

end

/-- The chart invariant: every edge stored in row `k` ends at `k` and is sound
(with the seed step admitted). -/
def RowOk (g : Grammar) (words : List String) (S : String) (chart : Chart) : Prop :=
  ∀ k, ∀ e ∈ getRow chart k, e.fin = k ∧ edgeOk g true words S e = true

mutual

/-- The claim's "built only from the grammar" property of one derivation node,
without position bookkeeping: a terminal match is licensed by the lexicon; a
sub-edge is complete and decomposes its `lhs` by a legal signature (a grammar
right-hand side, or — when `allowSeed` — the seed step), recursively. -/
def itemRules (g : Grammar) (allowSeed : Bool) (S : String) : Item → Bool
  | .term c w => g.isa w c
  | .sub _ _ l fnd ex =>
      sigOk g allowSeed S l (sigOf fnd) && ex.isEmpty && itemsRules g allowSeed S fnd
  termination_by structural i => i

/-- `itemRules` over a `found` list. -/
def itemsRules (g : Grammar) (allowSeed : Bool) (S : String) : List Item → Bool
  | [] => true
  | i :: is => itemRules g allowSeed S i && itemsRules g allowSeed S is
  termination_by structural l => l

end

/-- The claim's "built only from the grammar" property of a returned edge: its
own decomposition is legal and so is every node below it. -/
def edgeRules (g : Grammar) (allowSeed : Bool) (S : String) (e : Edge) : Bool :=
  sigOk g allowSeed S e.lhs (sigOf e.found ++ e.expects) && itemsRules g allowSeed S e.found

/-! ### The `Grammar` object with its mutable `categories` field (for C7)

`self.categories` is a `defaultdict(list)`, and `isa` reads it with
`self.categories[word]`, whose `__missing__` hook inserts an empty entry for an
unknown word.  `rewrites_for` uses the non-mutating `dict.get`. -/

/-- The `Grammar` object: `rules`, `lexicon`, and the `categories` index built
by `__init__` — kept as explicit state because `defaultdict` lookups mutate it. -/
structure GrammarObj : Type where
  name : String
  rules : List (String × List (List String))
  lexicon : List (String × List String)
  categories : List (String × List String)

/-- `Grammar.__init__(name, rules, lexicon)`. -/
def GrammarObj.init (name : String) (rules : List (String × List (List String)))
    (lexicon : List (String × List String)) : GrammarObj :=
  ⟨name, rules, lexicon, build_categories lexicon⟩

/-- `Grammar.isa` with its actual effect on the object:
`cat in self.categories[word]` where indexing a `defaultdict(list)` with a
missing key inserts `word → []` before returning it. -/
def isaSt (st : GrammarObj) (word cat : String) : Bool × GrammarObj :=
  match st.categories.find? (fun p => p.1 == word) with
  | some p => (p.2.contains cat, st)
  | none => (([] : List String).contains cat, { st with categories := st.categories ++ [(word, [])] })

/-! ### The `parses` entry point on a `Chart` object (for C9 and C10) -/

/-- Python `str.split()` with no argument: split on runs of whitespace,
discarding empty pieces. -/
def pySplit (s : String) : List String :=
  (s.split fun c => c.isWhitespace).filter (fun t => !t.isEmpty)

/-- The dynamically-typed `words` argument of `Chart.parses`: a single string
or an already-tokenized list. -/
inductive Words : Type where
  | ofString (s : String)
  | ofList (ws : List String)

/-- The coercion performed by `Chart.parses`:
`if isinstance(words, str): words = words.split()`. -/
def Words.tokens : Words → List String
  | .ofString s => pySplit s
  | .ofList ws => ws

/-- The `Chart` object: the grammar and trace flag stored by `__init__`, and
the mutable `self.chart` attribute. -/
structure ChartObj : Type where
  grammar : Grammar
  trace : Bool
  chart : Chart

/-- `Chart.parse` as a method: `self.chart = [[] for i in ...]` rebuilds the
chart from scratch, ignoring whatever `self.chart` held before. -/
def ChartObj.parseM (co : ChartObj) (fuel : Nat) (words : List String) (S : String) : ChartObj :=
  { co with chart := parse co.grammar fuel words S }

/-- `Chart.parses` as a method: tokenize if needed, call `self.parse`, then
extract the complete whole-input edges from `self.chart[len(words)]`. -/
def ChartObj.parsesM (co : ChartObj) (fuel : Nat) (w : Words) (S : String) :
    List Edge × ChartObj :=
  let ws := w.tokens
  let co' := co.parseM fuel ws S
  (extract_parses co'.chart ws.length S, co')

/-! ### CYK parsing (for C4)

`CYK_parse(words, grammar)` relies on an interface the rest of the file does
not define (the source marks it `XXX`): `grammar.categories[word]` yielding
`(category, probability)` pairs and `grammar.cnf_rules()` yielding
`(X, Y, Z, p)` quadruples.  `PGrammar` models exactly that interface, as the
claim's precondition states.  Python probabilities are floats; they are
modelled as exact rationals, which keeps `max` and `*` as the claimed
operations. -/

/-- The CNF-with-probabilities grammar interface assumed by `CYK_parse`. -/
structure PGrammar : Type where
  categories : String → List (String × ℚ)
  cnf_rules : List (String × String × String × ℚ)

/-- The table `P = defaultdict(float)`: a total map defaulting to `0`. -/
abbrev PTable : Type := (String × Nat × Nat) → ℚ

/-- `P[k] = v`. -/
def upd (P : PTable) (k : String × Nat × Nat) (v : ℚ) : PTable :=
  fun k' => if k' = k then v else P k'

/-- The lexical loop of `CYK_parse`:
`for (i, word) in enumerate(words): for (X, p) in grammar.categories[word]: P[X, i, 1] = p`
(written with an explicit position counter in place of `enumerate`). -/
def lex_pass (pg : PGrammar) : List String → Nat → PTable → PTable
  | [], _, P => P
  | w :: ws, i, P =>
      lex_pass pg ws (i+1) ((pg.categories w).foldl (fun P Xp => upd P (Xp.1, i, 1) Xp.2) P)

/-- One binary-rule update:
`P[X, start, length] = max(P[X, start, length], P[Y, start, len1] * P[Z, start+len1, len2] * p)`
for the rule `r = (X, Y, Z, p)`. -/
def rule_step (start len1 len2 length : Nat) (P : PTable)
    (r : String × String × String × ℚ) : PTable :=
  upd P (r.1, start, length)
    (max (P (r.1, start, length))
      (P (r.2.1, start, len1) * P (r.2.2.1, start + len1, len2) * r.2.2.2))

/-- The innermost loop of `CYK_parse`:
`for (X, Y, Z, p) in grammar.cnf_rules(): ...` applying `rule_step` to each. -/
def rule_pass (pg : PGrammar) (start len1 len2 length : Nat) (P : PTable) : PTable :=
  pg.cnf_rules.foldl (rule_step start len1 len2 length) P

/-- `for len1 in range(1, length): len2 = length - len1; ...`. -/
def len1_pass (pg : PGrammar) (start length : Nat) (P : PTable) : PTable :=
  (List.range' 1 (length - 1)).foldl
    (fun P len1 => rule_pass pg start len1 (length - len1) length P) P

/-- `for start in range(N - length + 1): ...`. -/
def start_pass (pg : PGrammar) (N length : Nat) (P : PTable) : PTable :=
  (List.range (N - length + 1)).foldl (fun P start => len1_pass pg start length P) P

/-- `CYK_parse`: the lexical pass, then span lengths from 2 to `N` inclusive,
shortest first. -/
def CYK_parse (pg : PGrammar) (words : List String) : PTable :=
  let N := words.length
  (List.range' 2 (N - 1)).foldl (fun P length => start_pass pg N length P)
    (lex_pass pg words 0 (fun _ => 0))

/-- The candidate products for cell `(X, s, L)` in the code's iteration order:
split points `len1` from 1 to `L-1`, and for each, the binary rules whose
left-hand side is `X`. -/
def cand_list (pg : PGrammar) (P : PTable) (s L : Nat) (X : String) : List ℚ :=
  (List.range' 1 (L - 1)).flatMap (fun len1 =>
    (pg.cnf_rules.filter (fun r => r.1 == X)).map
      (fun r => P (r.2.1, s, len1) * P (r.2.2.1, s + len1, L - len1) * r.2.2.2))

/-! ### What the `categories` index can contain -/

theorem lookupD_cons (p : String × List String) (m : List (String × List String))
    (w : String) :
    lookupD (p :: m) w = if (p.1 == w) = true then p.2 else lookupD m w := by
  unfold lookupD
  rw [List.find?_cons]
  by_cases hp : (p.1 == w) = true
  · rw [if_pos hp]
    simp only [hp]
  · rw [if_neg hp]
    simp only [Bool.not_eq_true] at hp
    simp only [hp]

theorem mem_lookupD_dict_append {m : List (String × List String)} {k v w c : String}
    (h : c ∈ lookupD (dict_append m k v) w) :
    c ∈ lookupD m w ∨ (c = v ∧ w = k) := by
  unfold dict_append at h
  by_cases hk : m.any (fun p => p.1 == k) = true
  · rw [if_pos hk] at h
    clear hk
    induction m with
    | nil => exact Or.inl h
    | cons p m ih =>
      rw [List.map_cons] at h
      rw [lookupD_cons]
      by_cases hpw : (p.1 == w) = true
      · by_cases hpk : (p.1 == k) = true
        · rw [if_pos hpk, lookupD_cons, if_pos hpw] at h
          rcases List.mem_append.mp h with h1 | h1
          · exact Or.inl (by rw [if_pos hpw]; exact h1)
          · have h2 : p.1 = w := by simpa using hpw
            have h3 : p.1 = k := by simpa using hpk
            exact Or.inr ⟨List.mem_singleton.mp h1, by rw [← h2, h3]⟩
        · rw [if_neg hpk, lookupD_cons, if_pos hpw] at h
          exact Or.inl (by rw [if_pos hpw]; exact h)
      · have hhead :
            ((if (p.1 == k) = true then (p.1, p.2 ++ [v]) else p).1 == w) = true →
              False := by
          by_cases hpk : (p.1 == k) = true <;> simp [hpk, hpw]
        rw [lookupD_cons, if_neg hhead] at h
        rw [if_neg hpw]
        exact (ih h).imp_left id
  · rw [if_neg hk] at h
    clear hk
    induction m with
    | nil =>
      rw [List.nil_append, lookupD_cons] at h
      by_cases hkw : (k == w) = true
      · rw [if_pos hkw] at h
        exact Or.inr ⟨List.mem_singleton.mp h, by have := (beq_iff_eq.mp hkw); rw [this]⟩
      · rw [if_neg hkw] at h
        exact absurd h (List.not_mem_nil c)
    | cons p m ih =>
      rw [List.cons_append, lookupD_cons] at h
      rw [lookupD_cons]
      by_cases hpw : (p.1 == w) = true
      · rw [if_pos hpw] at h
        exact Or.inl (by rw [if_pos hpw]; exact h)
      · rw [if_neg hpw] at h
        rw [if_neg hpw]
        exact (ih h).imp_left id

/-- Every membership of the `categories` index traces back to a lexicon entry:
`c ∈ categories[w]` only if some lexicon line `(c, ws)` lists the word `w`. -/
theorem mem_lookupD_build_categories {lex : List (String × List String)} {w c : String}
    (h : c ∈ lookupD (build_categories lex) w) :
    ∃ ws, (c, ws) ∈ lex ∧ w ∈ ws := by
  suffices haux : ∀ (lex : List (String × List String)) (acc : List (String × List String)),
      c ∈ lookupD
        (lex.foldl (fun m p => p.2.foldl (fun m w' => dict_append m w' p.1) m) acc) w →
      c ∈ lookupD acc w ∨ ∃ ws, (c, ws) ∈ lex ∧ w ∈ ws by
    rcases haux lex [] h with h1 | h1
    · exact absurd h1 (by simp [lookupD, List.find?])
    · exact h1
  have hinner : ∀ (ws : List String) (lhs : String) (acc : List (String × List String)),
      c ∈ lookupD (ws.foldl (fun m w' => dict_append m w' lhs) acc) w →
      c ∈ lookupD acc w ∨ (c = lhs ∧ w ∈ ws) := by
    intro ws lhs
    induction ws with
    | nil => exact fun acc h => Or.inl h
    | cons w0 ws ih =>
      intro acc h
      rcases ih _ h with h1 | h1
      · rcases mem_lookupD_dict_append h1 with h2 | ⟨h2, h3⟩
        · exact Or.inl h2
        · exact Or.inr ⟨h2, by rw [h3]; exact List.mem_cons_self w0 ws⟩
      · exact Or.inr ⟨h1.1, List.mem_cons_of_mem w0 h1.2⟩
  intro lex
  induction lex with
  | nil => exact fun acc h => Or.inl h
  | cons p lex ih =>
    intro acc h
    rcases ih _ h with h1 | h1
    · rcases hinner p.2 p.1 acc h1 with h2 | ⟨h2, h3⟩
      · exact Or.inl h2
      · exact Or.inr ⟨p.2, by rw [h2]; exact ⟨List.mem_cons_self p lex, h3⟩⟩
    · rcases h1 with ⟨ws, hmem, hw⟩
      exact Or.inr ⟨ws, List.mem_cons_of_mem p hmem, hw⟩

/-- A word appearing in no lexicon line has no categories: `isa` is false for
every category. -/
theorem isa_false_of_unknown_word (g : Grammar) (w : String)
    (hw : ∀ p ∈ g.lexicon, w ∉ p.2) (c : String) : g.isa w c = false := by
  unfold Grammar.isa
  by_cases hc : c ∈ lookupD g.categories w
  · rcases mem_lookupD_build_categories hc with ⟨ws, hmem, hmem2⟩
    exact absurd hmem2 (hw (c, ws) hmem)
  · simpa using hc

/-- A symbol that is not a lexicon key is nobody's category: `isa` is false on
every word for it. -/
theorem isa_false_of_unknown_cat (g : Grammar) (b : String)
    (hb : ∀ p ∈ g.lexicon, p.1 ≠ b) (w : String) : g.isa w b = false := by
  unfold Grammar.isa
  by_cases hc : b ∈ lookupD g.categories w
  · rcases mem_lookupD_build_categories hc with ⟨ws, hmem, -⟩
    exact absurd rfl (hb (b, ws) hmem)
  · simpa using hc

/-! ### Row bookkeeping lemmas -/

theorem getRow_setRow_ne (chart : Chart) (k : Nat) (row : List Edge) (k' : Nat)
    (h : k' ≠ k) : getRow (setRow chart k row) k' = getRow chart k' := by
  induction chart generalizing k k' with
  | nil => rfl
  | cons r rs ih =>
    cases k with
    | zero =>
      cases k' with
      | zero => exact absurd rfl h
      | succ k' => rfl
    | succ k =>
      cases k' with
      | zero => rfl
      | succ k' => exact ih k k' (fun hk => h (by rw [hk]))

theorem getRow_setRow_self (chart : Chart) (k : Nat) (row : List Edge)
    (h : k < chart.length) : getRow (setRow chart k row) k = row := by
  induction chart generalizing k with
  | nil => exact absurd h (by simp)
  | cons r rs ih =>
    cases k with
    | zero => rfl
    | succ k => exact ih k (by simpa using h)

theorem setRow_of_length_le (chart : Chart) (k : Nat) (row : List Edge)
    (h : chart.length ≤ k) : setRow chart k row = chart := by
  induction chart generalizing k with
  | nil => rfl
  | cons r rs ih =>
    cases k with
    | zero => exact absurd h (by simp)
    | succ k => simpa [setRow, List.set] using ih k (by simpa using h)

theorem mem_getRow_setRow {chart : Chart} {k : Nat} {row : List Edge} {k' : Nat}
    {e : Edge} (h : e ∈ getRow (setRow chart k row) k') :
    e ∈ getRow chart k' ∨ (k' = k ∧ e ∈ row) := by
  by_cases hk : k' = k
  · subst hk
    by_cases hlen : k' < chart.length
    · rw [getRow_setRow_self chart k' row hlen] at h
      exact Or.inr ⟨rfl, h⟩
    · rw [setRow_of_length_le chart k' row (Nat.le_of_not_lt hlen)] at h
      exact Or.inl h
  · rw [getRow_setRow_ne chart k row k' hk] at h
    exact Or.inl h

theorem getRow_replicate (n : Nat) (k : Nat) :
    getRow (List.replicate n ([] : List Edge)) k = [] := by
  induction n generalizing k with
  | zero => cases k <;> rfl
  | succ n ih =>
    cases k with
    | zero => rfl
    | succ k => exact ih k

/-! ### Locality: `add_edge` only ever appends to the row of its edge's end

The predictor adds edges at the position where the triggering edge ends, and
the extender's new edges end where the completed edge ends, so the whole call
tree of `add_edge e` writes only to `chart[e.end]`; the scanner writes only to
`chart[j+1]`. -/

theorem parser_local (g : Grammar) : ∀ fuel : Nat,
    (∀ chart (e : Edge) k, k ≠ e.fin →
      getRow (add_edge g fuel chart e) k = getRow chart k) ∧
    (∀ (e : Edge) idx chart k, k ≠ e.fin →
      getRow (extender_loop g fuel e idx chart) k = getRow chart k) ∧
    (∀ j b l chart k, k ≠ j →
      getRow (predictor_loop g fuel j b l chart) k = getRow chart k) := by
  intro fuel
  induction fuel with
  | zero =>
    exact ⟨fun chart e k _ => rfl, fun e idx chart k _ => rfl,
      fun j b l chart k _ => rfl⟩
  | succ f ih =>
    obtain ⟨ihA, ihE, ihP⟩ := ih
    refine ⟨?_, ?_, ?_⟩
    · intro chart e k hk
      rw [add_edge]
      by_cases hmem : e ∈ getRow chart e.fin
      · rw [if_pos hmem]
      · rw [if_neg hmem]
        cases hex : e.expects with
        | nil =>
          simp only
          rw [ihE e 0 _ k hk, getRow_setRow_ne _ _ _ _ hk]
        | cons b rest =>
          simp only
          by_cases hr : g.rules.any (fun p => p.1 == b) = true
          · rw [if_pos hr, ihP e.fin b _ _ k hk, getRow_setRow_ne _ _ _ _ hk]
          · rw [if_neg hr, getRow_setRow_ne _ _ _ _ hk]
    · intro e idx chart k hk
      cases hg : (getRow chart e.start).get? idx with
      | none => simp only [extender_loop, hg]
      | some a =>
        simp only [extender_loop, hg]
        rw [ihE e (idx+1) _ k hk]
        cases hex : a.expects with
        | nil => simp only
        | cons b rest =>
          simp only
          by_cases hb : b = e.lhs
          · rw [if_pos hb]
            exact ihA chart _ k hk
          · rw [if_neg hb]
    · intro j b l chart k hk
      cases l with
      | nil => rw [predictor_loop]
      | cons rhs rest =>
        rw [predictor_loop]
        rw [ihP j b rest _ k hk, ihA chart _ k hk]

theorem scanner_loop_local (g : Grammar) (j : Nat) (word : String) :
    ∀ fuel idx chart k, k ≠ j + 1 →
      getRow (scanner_loop g fuel j word idx chart) k = getRow chart k := by
  intro fuel
  induction fuel with
  | zero => intro idx chart k _; rfl
  | succ f ih =>
    intro idx chart k hk
    cases hg : (getRow chart j).get? idx with
    | none => simp only [scanner_loop, hg]
    | some a =>
      simp only [scanner_loop, hg]
      rw [ih (idx+1) _ k hk]
      cases hex : a.expects with
      | nil => simp only
      | cons b rest =>
        simp only
        by_cases hb : g.isa word b = true
        · rw [if_pos hb]
          exact (parser_local g f).1 chart _ k hk
        · rw [if_neg hb]

/-- The scanner adds nothing when no active edge of row `j` expects a category
the scanned word belongs to (this covers empty rows vacuously). -/
theorem scanner_loop_noop (g : Grammar) (j : Nat) (word : String) (chart : Chart)
    (h : ∀ e ∈ getRow chart j, ∀ c cs, e.expects = c :: cs → g.isa word c = false) :
    ∀ fuel idx, scanner_loop g fuel j word idx chart = chart := by
  intro fuel
  induction fuel with
  | zero => intro idx; rfl
  | succ f ih =>
    intro idx
    cases hg : (getRow chart j).get? idx with
    | none => simp only [scanner_loop, hg]
    | some a =>
      have ha : a ∈ getRow chart j := List.get?_mem hg
      simp only [scanner_loop, hg]
      cases hex : a.expects with
      | nil =>
        simp only
        exact ih (idx+1)
      | cons c cs =>
        simp only [h a ha c cs hex, Bool.false_eq_true, if_false]
        exact ih (idx+1)

/-! ### Claim theorems: parses postcondition, determinism, string input -/

theorem rebuild_eq_self {S : String} {e : Edge} (h : complete_filter S e = true) :
    (⟨e.start, e.fin, S, e.found, []⟩ : Edge) = e := by
  obtain ⟨s, f, l, fd, ex⟩ := e
  simp only [complete_filter, Bool.and_eq_true, beq_iff_eq, List.isEmpty_iff] at h
  obtain ⟨⟨-, h2⟩, h3⟩ := h
  simp [h2, h3]

theorem map_rebuild_filter (S : String) (l : List Edge) :
    (l.filter (complete_filter S)).map
        (fun e => (⟨e.start, e.fin, S, e.found, []⟩ : Edge)) =
      l.filter (complete_filter S) := by
  induction l with
  | nil => rfl
  | cons e es ih =>
    by_cases h : complete_filter S e = true
    · simp [List.filter_cons, h, ih, rebuild_eq_self h]
    · simp [List.filter_cons, h, ih]

/-- Claim C3: after `parse(words, S)` fills the chart, `parses` returns exactly
the edges of `chart[len(words)]` whose `start` is 0, whose `lhs` equals the
start symbol, and whose `expects` is empty — the rebuilt 5-lists coincide with
those edges, one entry each, possibly zero, one, or many. -/
theorem claim_C3_parses_postcondition (g : Grammar) (fuel : Nat)
    (words : List String) (S : String) :
    parses g fuel words S =
      (getRow (parse g fuel words S) words.length).filter (complete_filter S) ∧
    ∀ e, e ∈ parses g fuel words S ↔
      e ∈ getRow (parse g fuel words S) words.length ∧
        e.start = 0 ∧ e.lhs = S ∧ e.expects = [] := by
  have h1 : parses g fuel words S =
      (getRow (parse g fuel words S) words.length).filter (complete_filter S) := by
    unfold parses extract_parses
    exact map_rebuild_filter S _
  refine ⟨h1, fun e => ?_⟩
  rw [h1, List.mem_filter]
  simp [complete_filter, Bool.and_eq_true, beq_iff_eq, List.isEmpty_iff, and_assoc]

/-- Claim C9: determinism — the list of derivations returned by `parses`
depends only on the grammar, the input and the start symbol, not on the
object's previous chart state; `parse` rebuilds `self.chart` from scratch, and
a repeated call on the same (already mutated) object returns the same list. -/
theorem claim_C9_determinism (g : Grammar) (fuel : Nat) (tr1 tr2 : Bool)
    (ch1 ch2 : Chart) (w : Words) (ws : List String) (S : String) :
    ((ChartObj.mk g tr1 ch1).parsesM fuel w S).1 =
        ((ChartObj.mk g tr2 ch2).parsesM fuel w S).1 ∧
    ((ChartObj.mk g tr1 ch1).parseM fuel ws S).chart = parse g fuel ws S ∧
    ((((ChartObj.mk g tr1 ch1).parsesM fuel w S).2).parsesM fuel w S).1 =
        ((ChartObj.mk g tr1 ch1).parsesM fuel w S).1 :=
  ⟨rfl, rfl, rfl⟩

/-- Claim C10: `Chart.parses` accepts a whitespace-separated string in place of
a token list, and on a string `s` it returns exactly what it returns on the
token list `s.split()`. -/
theorem claim_C10_string_input (g : Grammar) (tr : Bool) (ch : Chart)
    (fuel : Nat) (s : String) (S : String) :
    ((ChartObj.mk g tr ch).parsesM fuel (.ofString s) S).1 =
      ((ChartObj.mk g tr ch).parsesM fuel (.ofList (pySplit s)) S).1 :=
  rfl

/-! ### Claim C1: soundness machinery -/

theorem foundOk_append {g : Grammar} {aS : Bool} {words : List String} {S : String} :
    ∀ (l : List Item) (it : Item) (a m b : Nat),
      foundOk g aS words S l a m = true → itemOk g aS words S it m b = true →
      it.endAt m = b →
      foundOk g aS words S (l ++ [it]) a b = true := by
  intro l it
  induction l with
  | nil =>
    intro a m b h1 h2 hend
    have ham : a = m := by simpa [foundOk] using h1
    subst ham
    show foundOk g aS words S (it :: []) a b = true
    rw [foundOk, hend]
    simp only [Bool.and_eq_true]
    exact ⟨h2, by simp [foundOk]⟩
  | cons i is ih =>
    intro a m b h1 h2 hend
    rw [List.cons_append, foundOk]
    rw [foundOk, Bool.and_eq_true] at h1
    rw [Bool.and_eq_true]
    exact ⟨h1.1, ih _ _ _ h1.2 h2 hend⟩

/-- A complete sound edge, viewed as an item, is sound on its own span. -/
theorem itemOk_toItem {g : Grammar} {words : List String} {S : String} {e : Edge}
    (he : edgeOk g true words S e = true) (hex : e.expects = []) :
    itemOk g true words S e.toItem e.start e.fin = true := by
  rw [edgeOk, Bool.and_eq_true] at he
  obtain ⟨hsig, hfnd⟩ := he
  rw [hex, List.append_nil] at hsig
  show itemOk g true words S (.sub e.start e.fin e.lhs e.found e.expects) e.start e.fin = true
  rw [itemOk]
  simp [hex, hsig, hfnd]

theorem edgeOk_seed (g : Grammar) (words : List String) (S : String) :
    edgeOk g true words S (seed S) = true := by
  rw [edgeOk]
  show (sigOk g true S "S_" (sigOf [] ++ [S]) && foundOk g true words S [] 0 0) = true
  rw [sigOk]
  simp [foundOk, sigOf]

/-- The scanner's new edge is sound when the old one is. -/
theorem edgeOk_scan {g : Grammar} {words : List String} {S : String} {a : Edge}
    {b : String} {rest : List String} {j : Nat} {word : String}
    (ha : edgeOk g true words S a = true) (hex : a.expects = b :: rest)
    (hfin : a.fin = j) (hw : words.get? j = some word) (hisa : g.isa word b = true) :
    edgeOk g true words S ⟨a.start, j + 1, a.lhs, a.found ++ [Item.term b word], rest⟩
      = true := by
  rw [edgeOk, Bool.and_eq_true] at ha
  obtain ⟨hsig, hfnd⟩ := ha
  rw [edgeOk, Bool.and_eq_true]
  constructor
  · show sigOk g true S a.lhs (sigOf (a.found ++ [Item.term b word]) ++ rest) = true
    have hsg : sigOf (a.found ++ [Item.term b word]) ++ rest
        = sigOf a.found ++ a.expects := by
      rw [hex, sigOf, sigOf, List.map_append]
      simp [symOf]
    rw [hsg]
    exact hsig
  · show foundOk g true words S (a.found ++ [Item.term b word]) a.start (j + 1) = true
    refine foundOk_append a.found (Item.term b word) a.start j (j+1) (by rw [← hfin]; exact hfnd) ?_ rfl
    rw [itemOk]
    have hw2 : words[j]? = some word := by
      rw [← List.get?_eq_getElem?]
      exact hw
    simp [hw, hw2, hisa]

/-- The extender's new edge is sound when both participating edges are. -/
theorem edgeOk_extend {g : Grammar} {words : List String} {S : String} {a e : Edge}
    {b : String} {rest : List String}
    (ha : edgeOk g true words S a = true) (hex : a.expects = b :: rest)
    (hfin : a.fin = e.start) (he : edgeOk g true words S e = true)
    (heex : e.expects = []) (hb : b = e.lhs) :
    edgeOk g true words S ⟨a.start, e.fin, a.lhs, a.found ++ [e.toItem], rest⟩ = true := by
  rw [edgeOk, Bool.and_eq_true] at ha
  obtain ⟨hsig, hfnd⟩ := ha
  rw [edgeOk, Bool.and_eq_true]
  constructor
  · show sigOk g true S a.lhs (sigOf (a.found ++ [e.toItem]) ++ rest) = true
    have hsg : sigOf (a.found ++ [e.toItem]) ++ rest = sigOf a.found ++ a.expects := by
      rw [hex, sigOf, sigOf, List.map_append]
      simp [symOf, Edge.toItem, hb]
    rw [hsg]
    exact hsig
  · show foundOk g true words S (a.found ++ [e.toItem]) a.start e.fin = true
    refine foundOk_append a.found e.toItem a.start e.start e.fin
      (by rw [← hfin]; exact hfnd) (itemOk_toItem he heex) rfl

/-- The predictor's new zero-width edge is sound. -/
theorem edgeOk_predict {g : Grammar} {words : List String} {S : String} {j : Nat}
    {bb : String} {rhs : List String} (hm : rhs ∈ g.rewrites_for bb) :
    edgeOk g true words S ⟨j, j, bb, [], rhs⟩ = true := by
  rw [edgeOk]
  show (sigOk g true S bb (sigOf [] ++ rhs) && foundOk g true words S [] j j) = true
  rw [sigOk]
  simp [foundOk]
  exact Or.inl (by simpa using hm)

theorem take_one_drop (ws : List String) :
    ∀ (a : Nat) (w : String), ws.get? a = some w → (ws.drop a).take 1 = [w] := by
  induction ws with
  | nil => intro a w h; cases a <;> exact Option.noConfusion h
  | cons x ws ih =>
    intro a w h
    cases a with
    | zero =>
      have hx : x = w := Option.some.inj h
      simp [hx]
    | succ a =>
      rw [List.drop]
      exact ih a w h

theorem extract_append (ws : List String) (a m b : Nat) (h1 : a ≤ m) (h2 : m ≤ b) :
    (ws.drop a).take (m - a) ++ (ws.drop m).take (b - m) = (ws.drop a).take (b - a) := by
  have hba : b - a = (m - a) + (b - m) := by omega
  rw [hba, List.take_add]
  congr 1
  have hd : (ws.drop a).drop (m - a) = ws.drop m := by
    rw [List.drop_drop]
    congr 1
    omega
  rw [hd]

/-- A sound `found` chain over `[a, b)` has exactly the input words of that
span as its terminal leaves, read left to right. -/
theorem foundOk_leaves (g : Grammar) (words : List String) (S : String) :
    ∀ (l : List Item) (a b : Nat), foundOk g true words S l a b = true →
      a ≤ b ∧ leavesList l = (words.drop a).take (b - a) := by
  refine foundOk.induct g true words S
    (fun i a b => itemOk g true words S i a b = true →
      a ≤ b ∧ Item.leaves i = (words.drop a).take (b - a))
    (fun l a b => foundOk g true words S l a b = true →
      a ≤ b ∧ leavesList l = (words.drop a).take (b - a))
    ?_ ?_ ?_ ?_
  · intro c w a b h
    rw [itemOk] at h
    simp only [Bool.and_eq_true, beq_iff_eq] at h
    obtain ⟨⟨hb, hw⟩, -⟩ := h
    refine ⟨by omega, ?_⟩
    rw [Item.leaves, hb]
    have hba : a + 1 - a = 1 := by omega
    rw [hba]
    exact (take_one_drop words a w hw).symm
  · intro s f lhs fnd ex a b ih h
    rw [itemOk] at h
    simp only [Bool.and_eq_true, beq_iff_eq] at h
    obtain ⟨⟨⟨⟨hsa, hfb⟩, -⟩, -⟩, hfnd⟩ := h
    obtain ⟨hle, hev⟩ := ih hfnd
    subst hsa
    subst hfb
    exact ⟨hle, by rw [Item.leaves, hev]⟩
  · intro a b h
    have hab : a = b := by simpa [foundOk] using h
    subst hab
    simp [leavesList]
  · intro i is a b ih1 ih2 h
    rw [foundOk, Bool.and_eq_true] at h
    obtain ⟨h1, h2⟩ := h
    obtain ⟨hle1, hev1⟩ := ih1 h1
    obtain ⟨hle2, hev2⟩ := ih2 h2
    refine ⟨Nat.le_trans hle1 hle2, ?_⟩
    rw [leavesList, hev1, hev2, extract_append words a (i.endAt a) b hle1 hle2]

theorem rowOk_insert {g : Grammar} {words : List String} {S : String} {chart : Chart}
    {e : Edge} (h : RowOk g words S chart) (he : edgeOk g true words S e = true) :
    RowOk g words S (setRow chart e.fin (getRow chart e.fin ++ [e])) := by
  intro k e' hmem
  rcases mem_getRow_setRow hmem with h1 | ⟨hk, h2⟩
  · exact h k e' h1
  · subst hk
    rcases List.mem_append.mp h2 with h3 | h3
    · exact h e.fin e' h3
    · rw [List.mem_singleton] at h3
      subst h3
      exact ⟨rfl, he⟩

/-- Every parser operation preserves the chart soundness invariant, given that
the edge it is fed is itself sound (and, for the extender, complete). -/
theorem rowok_mutual (g : Grammar) (words : List String) (S : String) : ∀ fuel : Nat,
    (∀ chart e, RowOk g words S chart → edgeOk g true words S e = true →
      RowOk g words S (add_edge g fuel chart e)) ∧
    (∀ (e : Edge) idx chart, RowOk g words S chart → edgeOk g true words S e = true →
      e.expects = [] → RowOk g words S (extender_loop g fuel e idx chart)) ∧
    (∀ j b l chart, RowOk g words S chart → (∀ rhs ∈ l, rhs ∈ g.rewrites_for b) →
      RowOk g words S (predictor_loop g fuel j b l chart)) := by
  intro fuel
  induction fuel with
  | zero => exact ⟨fun _ _ h _ => h, fun _ _ _ h _ _ => h, fun _ _ _ _ h _ => h⟩
  | succ f ih =>
    obtain ⟨ihA, ihE, ihP⟩ := ih
    refine ⟨?_, ?_, ?_⟩
    · intro chart e h he
      rw [add_edge]
      by_cases hmem : e ∈ getRow chart e.fin
      · rw [if_pos hmem]
        exact h
      · rw [if_neg hmem]
        cases hex : e.expects with
        | nil =>
          simp only
          exact ihE e 0 _ (rowOk_insert h he) he hex
        | cons b rest =>
          simp only
          by_cases hr : g.rules.any (fun p => p.1 == b) = true
          · rw [if_pos hr]
            exact ihP _ _ _ _ (rowOk_insert h he) (fun rhs hrhs => hrhs)
          · rw [if_neg hr]
            exact rowOk_insert h he
    · intro e idx chart h he heex
      cases hg : (getRow chart e.start).get? idx with
      | none =>
        simp only [extender_loop, hg]
        exact h
      | some a =>
        have ha := h e.start a (List.get?_mem hg)
        simp only [extender_loop, hg]
        refine ihE e (idx+1) _ ?_ he heex
        cases hex : a.expects with
        | nil => simp only; exact h
        | cons b rest =>
          simp only
          by_cases hb : b = e.lhs
          · rw [if_pos hb]
            exact ihA _ _ h (edgeOk_extend ha.2 hex ha.1 he heex hb)
          · rw [if_neg hb]
            exact h
    · intro j b l chart h hl
      cases l with
      | nil =>
        rw [predictor_loop]
        exact h
      | cons rhs rest =>
        rw [predictor_loop]
        refine ihP _ _ _ _ (ihA _ _ h ?_) ?_
        · exact edgeOk_predict (hl rhs (List.mem_cons_self rhs rest))
        · exact fun r hr => hl r (List.mem_cons_of_mem rhs hr)

theorem scanner_loop_rowok (g : Grammar) (words : List String) (S : String)
    (j : Nat) (word : String) (hw : words.get? j = some word) :
    ∀ fuel idx chart, RowOk g words S chart →
      RowOk g words S (scanner_loop g fuel j word idx chart) := by
  intro fuel
  induction fuel with
  | zero => exact fun idx chart h => h
  | succ f ih =>
    intro idx chart h
    cases hg : (getRow chart j).get? idx with
    | none =>
      simp only [scanner_loop, hg]
      exact h
    | some a =>
      have ha := h j a (List.get?_mem hg)
      simp only [scanner_loop, hg]
      refine ih (idx+1) _ ?_
      cases hex : a.expects with
      | nil => simp only; exact h
      | cons b rest =>
        simp only
        by_cases hb : g.isa word b = true
        · rw [if_pos hb]
          exact (rowok_mutual g words S f).1 _ _ h (edgeOk_scan ha.2 hex ha.1 hw hb)
        · rw [if_neg hb]
          exact h

theorem scan_all_rowok (g : Grammar) (words : List String) (S : String) (fuel : Nat) :
    ∀ (ws : List String) (j : Nat) (chart : Chart),
      (∀ i, ws.get? i = words.get? (j + i)) → RowOk g words S chart →
      RowOk g words S (scan_all g fuel ws j chart) := by
  intro ws
  induction ws with
  | nil => exact fun j chart _ h => h
  | cons w0 ws ih =>
    intro j chart hsuf h
    have hw0 : words.get? j = some w0 := by
      have := hsuf 0
      simpa using this.symm
    have hsuf' : ∀ i, ws.get? i = words.get? (j + 1 + i) := by
      intro i
      have := hsuf (i + 1)
      simpa [Nat.add_assoc, Nat.add_comm 1 i] using this
    exact ih (j+1) _ hsuf' (scanner_loop_rowok g words S j w0 hw0 fuel 0 chart h)

/-- The chart left by `parse` satisfies the soundness invariant. -/
theorem parse_rowok (g : Grammar) (fuel : Nat) (words : List String) (S : String) :
    RowOk g words S (parse g fuel words S) := by
  unfold parse
  refine scan_all_rowok g words S fuel words 0 _ (fun i => by simp) ?_
  refine (rowok_mutual g words S fuel).1 _ _ ?_ (edgeOk_seed g words S)
  intro k e hmem
  rw [getRow_replicate] at hmem
  exact absurd hmem (List.not_mem_nil e)

/-- A positionally sound `found` chain is in particular built only from legal
decompositions and licensed terminal matches. -/
theorem itemsRules_of_foundOk (g : Grammar) (words : List String) (S : String) :
    ∀ (l : List Item) (a b : Nat), foundOk g true words S l a b = true →
      itemsRules g true S l = true := by
  refine foundOk.induct g true words S
    (fun i a b => itemOk g true words S i a b = true → itemRules g true S i = true)
    (fun l a b => foundOk g true words S l a b = true → itemsRules g true S l = true)
    ?_ ?_ ?_ ?_
  · intro c w a b h
    rw [itemOk] at h
    rw [itemRules]
    simp only [Bool.and_eq_true] at h
    exact h.2
  · intro s f lhs fnd ex a b ih h
    rw [itemOk] at h
    rw [itemRules]
    simp only [Bool.and_eq_true] at h ⊢
    obtain ⟨⟨⟨⟨-, -⟩, hempty⟩, hsig⟩, hfnd⟩ := h
    exact ⟨⟨hsig, hempty⟩, ih hfnd⟩
  · intro a b h
    rfl
  · intro i is a b ih1 ih2 h
    rw [foundOk] at h
    rw [itemsRules]
    simp only [Bool.and_eq_true] at h ⊢
    exact ⟨ih1 h.1, ih2 h.2⟩

/-- Claim C1 counterexample: in the grammar `S → T | A`, `T → S_ A` with
lexicon `A → a` (a grammar that mentions the parser's reserved seed symbol
`S_`), parsing `a a` terminates and returns a derivation whose terminal leaves
are the input, but whose inner node with lhs `S_` decomposes as `S_ → S`, a
right-hand side present nowhere in `grammar.rules` — so not every returned
derivation is built only from rules of the grammar. -/
theorem claim_C1_counterexample :
    (parses ⟨"CE", [("S", [["T"], ["A"]]), ("T", [["S_", "A"]])], [("A", ["a"])]⟩ 40
        ["a", "a"] "S").any
      (fun e =>
        !(edgeRules ⟨"CE", [("S", [["T"], ["A"]]), ("T", [["S_", "A"]])], [("A", ["a"])]⟩
            false "S" e && (leavesList e.found == ["a", "a"]))) = true := by
  decide

/-- Claim C1 amended: every derivation returned by `parses` is built only from
right-hand sides present in `grammar.rules`, the synthetic seed step
`'S_' → [start symbol]` (which can leak into results only when the grammar
itself mentions the reserved symbol `S_`), and `(category, word)` terminal
matches licensed by `grammar.lexicon`; it spans exactly `[0, len(words))`, its
`found` items chain contiguously over the input, and its terminal leaves, read
left to right, are exactly the input word sequence. -/
theorem claim_C1_soundness (g : Grammar) (fuel : Nat) (words : List String)
    (S : String) : ∀ e ∈ parses g fuel words S,
    edgeRules g true S e = true ∧ edgeOk g true words S e = true ∧
      e.start = 0 ∧ e.fin = words.length ∧ leavesList e.found = words := by
  intro e he
  have h1 : parses g fuel words S
      = (getRow (parse g fuel words S) words.length).filter (complete_filter S) := by
    unfold parses extract_parses
    exact map_rebuild_filter S _
  rw [h1, List.mem_filter] at he
  obtain ⟨hmem, hfil⟩ := he
  obtain ⟨hfin, hok⟩ := parse_rowok g fuel words S words.length e hmem
  simp only [complete_filter, Bool.and_eq_true, beq_iff_eq, List.isEmpty_iff] at hfil
  obtain ⟨⟨h0, hS⟩, hex⟩ := hfil
  have hok2 := hok
  rw [edgeOk, Bool.and_eq_true] at hok2
  obtain ⟨hsig, hfnd⟩ := hok2
  refine ⟨?_, hok, h0, hfin, ?_⟩
  · rw [edgeRules, Bool.and_eq_true]
    exact ⟨hsig, itemsRules_of_foundOk g words S e.found e.start e.fin hfnd⟩
  · have hf2 := hfnd
    rw [h0, hfin] at hf2
    obtain ⟨-, hl⟩ := foundOk_leaves g words S e.found 0 words.length hf2
    rw [hl]
    simp

/-- Claim C1 witness: the single parse of `["a"]` under `S → A`, `A → a` is the
edge `[0, 1, S, [(A, a)], []]`, and the amended soundness facts hold of it. -/
theorem claim_C1_witness :
    edgeRules (⟨"t", [("S", [["A"]])], [("A", ["a"])]⟩ : Grammar) true "S"
        ⟨0, 1, "S", [Item.term "A" "a"], []⟩ = true ∧
    edgeOk (⟨"t", [("S", [["A"]])], [("A", ["a"])]⟩ : Grammar) true ["a"] "S"
        ⟨0, 1, "S", [Item.term "A" "a"], []⟩ = true ∧
    (⟨0, 1, "S", [Item.term "A" "a"], []⟩ : Edge).start = 0 ∧
    (⟨0, 1, "S", [Item.term "A" "a"], []⟩ : Edge).fin = (["a"] : List String).length ∧
    leavesList [Item.term "A" "a"] = ["a"] :=
  claim_C1_soundness ⟨"t", [("S", [["A"]])], [("A", ["a"])]⟩ 20 ["a"] "S"
    ⟨0, 1, "S", [Item.term "A" "a"], []⟩ (by decide)

/-! ### Claim C2: the chart never stores duplicate edges -/

/-- No chart row contains two structurally identical edges. -/
def ChartND (chart : Chart) : Prop :=
  ∀ k, (getRow chart k).Nodup

theorem chartND_insert {chart : Chart} {e : Edge} (h : ChartND chart)
    (hmem : e ∉ getRow chart e.fin) :
    ChartND (setRow chart e.fin (getRow chart e.fin ++ [e])) := by
  intro k
  by_cases hk : k = e.fin
  · subst hk
    by_cases hlen : e.fin < chart.length
    · rw [getRow_setRow_self _ _ _ hlen]
      refine List.Nodup.append (h e.fin) (List.nodup_singleton e) ?_
      intro a ha hb
      rw [List.mem_singleton] at hb
      subst hb
      exact hmem ha
    · rw [setRow_of_length_le _ _ _ (Nat.le_of_not_lt hlen)]
      exact h e.fin
  · rw [getRow_setRow_ne _ _ _ _ hk]
    exact h k

theorem nodup_mutual (g : Grammar) : ∀ fuel : Nat,
    (∀ chart e, ChartND chart → ChartND (add_edge g fuel chart e)) ∧
    (∀ (e : Edge) idx chart, ChartND chart → ChartND (extender_loop g fuel e idx chart)) ∧
    (∀ j b l chart, ChartND chart → ChartND (predictor_loop g fuel j b l chart)) := by
  intro fuel
  induction fuel with
  | zero => exact ⟨fun _ _ h => h, fun _ _ _ h => h, fun _ _ _ _ h => h⟩
  | succ f ih =>
    obtain ⟨ihA, ihE, ihP⟩ := ih
    refine ⟨?_, ?_, ?_⟩
    · intro chart e h
      rw [add_edge]
      by_cases hmem : e ∈ getRow chart e.fin
      · rw [if_pos hmem]
        exact h
      · rw [if_neg hmem]
        cases hex : e.expects with
        | nil =>
          simp only
          exact ihE e 0 _ (chartND_insert h hmem)
        | cons b rest =>
          simp only
          by_cases hr : g.rules.any (fun p => p.1 == b) = true
          · rw [if_pos hr]
            exact ihP _ _ _ _ (chartND_insert h hmem)
          · rw [if_neg hr]
            exact chartND_insert h hmem
    · intro e idx chart h
      cases hg : (getRow chart e.start).get? idx with
      | none =>
        simp only [extender_loop, hg]
        exact h
      | some a =>
        simp only [extender_loop, hg]
        refine ihE e (idx+1) _ ?_
        cases hex : a.expects with
        | nil => simp only; exact h
        | cons b rest =>
          simp only
          by_cases hb : b = e.lhs
          · rw [if_pos hb]
            exact ihA _ _ h
          · rw [if_neg hb]
            exact h
    · intro j b l chart h
      cases l with
      | nil =>
        rw [predictor_loop]
        exact h
      | cons rhs rest =>
        rw [predictor_loop]
        exact ihP _ _ _ _ (ihA _ _ h)

theorem scanner_loop_nodup (g : Grammar) (j : Nat) (word : String) :
    ∀ fuel idx chart, ChartND chart → ChartND (scanner_loop g fuel j word idx chart) := by
  intro fuel
  induction fuel with
  | zero => exact fun idx chart h => h
  | succ f ih =>
    intro idx chart h
    cases hg : (getRow chart j).get? idx with
    | none =>
      simp only [scanner_loop, hg]
      exact h
    | some a =>
      simp only [scanner_loop, hg]
      refine ih (idx+1) _ ?_
      cases hex : a.expects with
      | nil => simp only; exact h
      | cons b rest =>
        simp only
        by_cases hb : g.isa word b = true
        · rw [if_pos hb]
          exact (nodup_mutual g f).1 _ _ h
        · rw [if_neg hb]
          exact h

theorem scan_all_nodup (g : Grammar) (fuel : Nat) :
    ∀ ws j chart, ChartND chart → ChartND (scan_all g fuel ws j chart) := by
  intro ws
  induction ws with
  | nil => exact fun j chart h => h
  | cons w ws ih =>
    intro j chart h
    exact ih (j+1) _ (scanner_loop_nodup g j w fuel 0 chart h)

/-- Claim C2: at every point during and after a parse no chart position holds
two structurally identical edges — `add_edge` preserves the no-duplicates
invariant, it is a no-op when the edge is already present in
`chart[edge.end]`, and the chart left by `parse` satisfies the invariant. -/
theorem claim_C2_no_duplicates (g : Grammar) (fuel : Nat) (words : List String)
    (S : String) :
    (∀ chart e, ChartND chart → ChartND (add_edge g fuel chart e)) ∧
    (∀ chart (e : Edge), e ∈ getRow chart e.fin → add_edge g fuel chart e = chart) ∧
    ChartND (parse g fuel words S) := by
  refine ⟨(nodup_mutual g fuel).1, ?_, ?_⟩
  · intro chart e hmem
    cases fuel with
    | zero => rfl
    | succ f => rw [add_edge, if_pos hmem]
  · unfold parse
    refine scan_all_nodup g fuel words 0 _ ?_
    refine (nodup_mutual g fuel).1 _ _ ?_
    intro k
    rw [getRow_replicate]
    exact List.nodup_nil

/-- Claim C2 witness: the preservation conjunct at the empty chart, the no-op
conjunct at a chart already holding the seed edge, and the final invariant on
a small complete parse. -/
theorem claim_C2_witness :
    ChartND (add_edge (⟨"t", [("S", [["A"]])], [("A", ["a"])]⟩ : Grammar) 5 [] (seed "S")) ∧
    add_edge (⟨"t", [("S", [["A"]])], [("A", ["a"])]⟩ : Grammar) 5 [[seed "S"]] (seed "S")
      = [[seed "S"]] ∧
    ChartND (parse (⟨"t", [("S", [["A"]])], [("A", ["a"])]⟩ : Grammar) 10 ["a"] "S") :=
  ⟨(claim_C2_no_duplicates ⟨"t", [("S", [["A"]])], [("A", ["a"])]⟩ 5 [] "S").1 [] (seed "S")
      (fun _ => List.nodup_nil),
   (claim_C2_no_duplicates ⟨"t", [("S", [["A"]])], [("A", ["a"])]⟩ 5 [] "S").2.1 [[seed "S"]]
      (seed "S") (by decide),
   (claim_C2_no_duplicates ⟨"t", [("S", [["A"]])], [("A", ["a"])]⟩ 10 ["a"] "S").2.2⟩

/-! ### Claims C5, C6, C8: unknown words, literal terminals, unknown start -/

/-- A scanner sweep adds nothing anywhere when its hypothesis holds. -/
theorem scan_all_noop (g : Grammar) (fuel : Nat) (chart : Chart)
    (hyp : ∀ j word, ∀ e ∈ getRow chart j, ∀ c cs,
      e.expects = c :: cs → g.isa word c = false) :
    ∀ ws j, scan_all g fuel ws j chart = chart := by
  intro ws
  induction ws with
  | nil => intro j; rfl
  | cons w ws ih =>
    intro j
    show scan_all g fuel ws (j+1) (scanner g fuel j w chart) = chart
    rw [scanner, scanner_loop_noop g j w chart (hyp j w) fuel 0]
    exact ih (j+1)

/-- Claim C5: a word sequence containing a token in no lexicon entry yields an
empty parse set (and, being a total function, no error): the scanner never
advances an edge over that token, so every chart row past it stays empty, in
particular the final row that `parses` reads. -/
theorem claim_C5_unknown_word (g : Grammar) (fuel : Nat) (words : List String)
    (S : String) (t : Nat) (w : String) (ht : words.get? t = some w)
    (hw : ∀ p ∈ g.lexicon, w ∉ p.2) :
    parses g fuel words S = [] := by
  have hn : t < words.length := by
    by_contra h
    rw [List.get?_eq_none.mpr (Nat.le_of_not_lt h)] at ht
    exact Option.noConfusion ht
  have hisa : ∀ c, g.isa w c = false := isa_false_of_unknown_word g w hw
  have haux : ∀ (ws : List String) (j : Nat) (chart : Chart),
      (∀ i, ws.get? i = words.get? (j + i)) →
      (∀ k, t < k → getRow chart k = []) →
      ∀ k, t < k → getRow (scan_all g fuel ws j chart) k = [] := by
    intro ws
    induction ws with
    | nil => intro j chart _ hinv k hk; exact hinv k hk
    | cons w0 ws ih =>
      intro j chart hsuf hinv k hk
      have hw0 : words.get? j = some w0 := by
        have := hsuf 0
        simpa using this.symm
      show getRow (scan_all g fuel ws (j+1) (scanner g fuel j w0 chart)) k = []
      have hsuf' : ∀ i, ws.get? i = words.get? (j + 1 + i) := by
        intro i
        have := hsuf (i + 1)
        simpa [Nat.add_assoc, Nat.add_comm 1 i] using this
      refine ih (j+1) _ hsuf' ?_ k hk
      intro k' hk'
      rcases Nat.lt_trichotomy j t with hj | hj | hj
      · rw [scanner, scanner_loop_local g j w0 fuel 0 chart k' (by omega)]
        exact hinv k' hk'
      · subst hj
        rw [scanner, scanner_loop_noop g j w0 chart ?_ fuel 0]
        · exact hinv k' hk'
        · intro e he c cs hex
          have hww : w0 = w := by
            rw [ht] at hw0
            exact (Option.some.inj hw0).symm
          rw [hww]
          exact hisa c
      · rw [scanner, scanner_loop_noop g j w0 chart ?_ fuel 0]
        · exact hinv k' hk'
        · intro e he c cs hex
          rw [hinv j hj] at he
          exact absurd he (List.not_mem_nil e)
  have hfinal : getRow (parse g fuel words S) words.length = [] := by
    unfold parse
    refine haux words 0 _ (fun i => by simp) ?_ words.length hn
    intro k hk
    rw [(parser_local g fuel).1 _ (seed S) k (by simp [seed]; omega)]
    exact getRow_replicate _ k
  unfold parses extract_parses
  rw [hfinal]
  rfl

/-- Claim C6 counterexample: in the grammar with the single rule `S → hi` and
an empty lexicon, the symbol `hi` is neither a rule key nor a lexicon key; the
edge expecting `hi` sits in `chart[0]` when the scanner reads the identical
input token `hi`, yet no edge advances: `chart[1]` stays empty and the parse
set is empty, contradicting the claimed literal-terminal matching. -/
theorem claim_C6_counterexample :
    (⟨0, 0, "S", [], ["hi"]⟩ : Edge) ∈
        getRow (parse ⟨"L", [("S", [["hi"]])], []⟩ 20 ["hi"] "S") 0 ∧
    getRow (parse ⟨"L", [("S", [["hi"]])], []⟩ 20 ["hi"] "S") 1 = [] ∧
    parses ⟨"L", [("S", [["hi"]])], []⟩ 20 ["hi"] "S" = [] := by
  refine ⟨by decide, by decide, by decide⟩

/-- Claim C6 amended: a right-hand-side symbol that appears neither as a rule
key nor as a lexicon key is never matched during parsing: `isa` returns false
for it on every word, so a scanner pass over a row whose active edges all
expect such a symbol next leaves the chart unchanged (surface-equality literal
matching exists only in `generate_random`, not in the chart parser). -/
theorem claim_C6_amended (g : Grammar) (b : String)
    (hr : ∀ p ∈ g.rules, p.1 ≠ b) (hl : ∀ p ∈ g.lexicon, p.1 ≠ b) :
    (∀ w, g.isa w b = false) ∧
    (∀ chart j, (∀ e ∈ getRow chart j, ∀ c cs, e.expects = c :: cs → c = b) →
      ∀ word fuel idx, scanner_loop g fuel j word idx chart = chart) := by
  have hisa := isa_false_of_unknown_cat g b hl
  refine ⟨hisa, ?_⟩
  intro chart j hall word fuel idx
  exact scanner_loop_noop g j word chart
    (fun e he c cs hex => by rw [hall e he c cs hex]; exact hisa word) fuel idx

/-- Claim C8: an undefined start symbol (neither a rule key nor a lexicon key)
makes the predictor produce nothing from the seed edge — every row other than
row 0 stays empty — and `parses` returns an empty list rather than an error. -/
theorem claim_C8_undefined_start (g : Grammar) (fuel : Nat) (words : List String)
    (S : String) (hr : ∀ p ∈ g.rules, p.1 ≠ S) (hl : ∀ p ∈ g.lexicon, p.1 ≠ S) :
    parses g fuel words S = [] ∧
    ∀ k, k ≠ 0 → getRow (parse g fuel words S) k = [] := by
  have hisa : ∀ w, g.isa w S = false := isa_false_of_unknown_cat g S hl
  have hany : ¬ (g.rules.any (fun p => p.1 == S) = true) := by
    intro h
    rcases List.any_eq_true.mp h with ⟨p, hp, hps⟩
    exact hr p hp (by simpa using hps)
  -- the chart right after seeding
  have hchart : ∀ k, getRow (add_edge g fuel (List.replicate (words.length + 1) []) (seed S)) k
      = if fuel ≠ 0 ∧ k = 0 then [seed S] else [] := by
    intro k
    cases fuel with
    | zero => simp [add_edge, getRow_replicate]
    | succ f =>
      have hred : add_edge g (f+1) (List.replicate (words.length + 1) []) (seed S)
          = if g.rules.any (fun p => p.1 == S) = true then
              predictor_loop g f 0 S (g.rewrites_for S)
                (setRow (List.replicate (words.length + 1) []) 0
                  (getRow (List.replicate (words.length + 1) []) 0 ++ [seed S]))
            else
              setRow (List.replicate (words.length + 1) []) 0
                (getRow (List.replicate (words.length + 1) []) 0 ++ [seed S]) := rfl
      rw [hred, if_neg hany]
      by_cases hk : k = 0
      · subst hk
        rw [getRow_setRow_self _ _ _ (by simp), getRow_replicate]
        simp
      · rw [getRow_setRow_ne _ _ _ _ hk, getRow_replicate]
        simp [hk]
  have hnoop := scan_all_noop g fuel
    (add_edge g fuel (List.replicate (words.length + 1) []) (seed S)) ?_ words 0
  · have hparse : ∀ k, getRow (parse g fuel words S) k
        = if fuel ≠ 0 ∧ k = 0 then [seed S] else [] := by
      intro k
      unfold parse
      rw [hnoop]
      exact hchart k
    constructor
    · unfold parses extract_parses
      rw [hparse words.length]
      by_cases hf : fuel ≠ 0 ∧ words.length = 0
      · rw [if_pos hf]
        simp [complete_filter, seed]
      · rw [if_neg hf]
        rfl
    · intro k hk
      rw [hparse k, if_neg (by intro h; exact hk h.2)]
  · intro j word e he c cs hex
    rw [hchart j] at he
    by_cases hj : fuel ≠ 0 ∧ j = 0
    · rw [if_pos hj] at he
      have he' : e = seed S := List.mem_singleton.mp he
      rw [he'] at hex
      have : c = S := by
        have : ([S] : List String) = c :: cs := hex
        exact (List.cons.injEq _ _ _ _ ▸ this).1.symm ▸ rfl
      rw [this]
      exact hisa word
    · rw [if_neg hj] at he
      exact absurd he (List.not_mem_nil e)

/-- Claim C5 witness: parsing `["b"]`, a token in no lexicon entry of the
grammar `S → A`, `A → a`, returns the empty parse set. -/
theorem claim_C5_witness :
    parses (⟨"t", [("S", [["A"]])], [("A", ["a"])]⟩ : Grammar) 7 ["b"] "S" = [] :=
  claim_C5_unknown_word ⟨"t", [("S", [["A"]])], [("A", ["a"])]⟩ 7 ["b"] "S" 0 "b"
    rfl (by decide)

/-- Claim C6 amended witness: in the grammar `S → hi` with empty lexicon, the
symbol `hi` is matched by `isa` on no word, and a scanner pass over the row
holding the edge that expects `hi` leaves the chart unchanged. -/
theorem claim_C6_amended_witness :
    Grammar.isa ⟨"L", [("S", [["hi"]])], []⟩ "hi" "hi" = false ∧
    scanner_loop ⟨"L", [("S", [["hi"]])], []⟩ 5 0 "hi" 0 [[⟨0, 0, "S", [], ["hi"]⟩]]
      = [[⟨0, 0, "S", [], ["hi"]⟩]] :=
  ⟨(claim_C6_amended ⟨"L", [("S", [["hi"]])], []⟩ "hi" (by decide) (by decide)).1 "hi",
   (claim_C6_amended ⟨"L", [("S", [["hi"]])], []⟩ "hi" (by decide) (by decide)).2
      [[⟨0, 0, "S", [], ["hi"]⟩]] 0
      (by
        intro e he c cs hex
        have he2 : e ∈ [(⟨0, 0, "S", [], ["hi"]⟩ : Edge)] := he
        rw [List.mem_singleton] at he2
        subst he2
        injection hex with h1 _
        exact h1.symm) "hi" 5 0⟩

/-- Claim C8 witness: parsing `["a"]` with the undefined start symbol `X`
returns the empty parse set and leaves every row other than row 0 empty. -/
theorem claim_C8_witness :
    parses (⟨"t", [("S", [["A"]])], [("A", ["a"])]⟩ : Grammar) 7 ["a"] "X" = [] ∧
    getRow (parse (⟨"t", [("S", [["A"]])], [("A", ["a"])]⟩ : Grammar) 7 ["a"] "X") 1 = [] :=
  ⟨(claim_C8_undefined_start ⟨"t", [("S", [["A"]])], [("A", ["a"])]⟩ 7 ["a"] "X"
      (by decide) (by decide)).1,
   (claim_C8_undefined_start ⟨"t", [("S", [["A"]])], [("A", ["a"])]⟩ 7 ["a"] "X"
      (by decide) (by decide)).2 1 (by decide)⟩

/-! ### Claim C7: the grammar is not quite read-only -/

/-- Claim C7 counterexample: on the grammar with lexicon `{N: [a]}`, calling
`isa("b", "N")` — a word absent from the lexicon — inserts the entry
`b → []` into `categories` via the `defaultdict` lookup, so `categories` does
not stay unchanged as the claim states. -/
theorem claim_C7_counterexample :
    (isaSt (GrammarObj.init "g7" [] [("N", ["a"])]) "b" "N").2.categories ≠
      (GrammarObj.init "g7" [] [("N", ["a"])]).categories := by
  decide

theorem lookupD_append_default (m : List (String × List String)) (word w : String) :
    lookupD (m ++ [(word, [])]) w = lookupD m w := by
  induction m with
  | nil =>
    unfold lookupD
    cases hw : word == w <;> simp [List.find?, hw]
  | cons p m ih =>
    unfold lookupD
    cases hp : p.1 == w <;> simp only [List.cons_append, List.find?, hp]
    exact ih

/-- Claim C7 amended: `rules` and `lexicon` are never modified, and every
`categories` lookup is unchanged, but `isa` on a word absent from the lexicon
does mutate `categories`: the `defaultdict` lookup inserts an empty entry
`word → []` for the missing word (an observationally harmless insertion, since
looking the word up still yields `[]`); the boolean result is exactly the pure
membership test on the pre-state. -/
theorem claim_C7_amended (st : GrammarObj) (word cat : String) :
    (isaSt st word cat).2.rules = st.rules ∧
    (isaSt st word cat).2.lexicon = st.lexicon ∧
    (∀ w, lookupD (isaSt st word cat).2.categories w = lookupD st.categories w) ∧
    (isaSt st word cat).1 = (lookupD st.categories word).contains cat := by
  unfold isaSt
  cases hf : st.categories.find? (fun p => p.1 == word) with
  | some p => exact ⟨rfl, rfl, fun w => rfl, by simp [lookupD, hf]⟩
  | none =>
    refine ⟨rfl, rfl, fun w => lookupD_append_default _ word w, ?_⟩
    simp [lookupD, hf]

/-! ### Claim C4: CYK correctness

The structure of the proof: the lexical pass writes only cells with span
length 1, each inductive pass at `length` writes only cells with that third
component, and its reads are all at strictly shorter lengths — so each cell of
the returned table satisfies the claimed base-case and recurrence equations
with respect to the returned table itself. -/

theorem upd_self (P : PTable) (k : String × Nat × Nat) (v : ℚ) : upd P k v k = v := by
  simp [upd]

theorem upd_ne (P : PTable) (k : String × Nat × Nat) (v : ℚ)
    (k' : String × Nat × Nat) (h : k' ≠ k) : upd P k v k' = P k' := by
  simp [upd, h]

theorem lexfold_ne (i : Nat) :
    ∀ (l : List (String × ℚ)) (P : PTable) (k : String × Nat × Nat),
      (k.2.1 ≠ i ∨ k.2.2 ≠ 1) →
      (l.foldl (fun P Xp => upd P (Xp.1, i, 1) Xp.2) P) k = P k := by
  intro l
  induction l with
  | nil => intro P k _; rfl
  | cons Xp l ih =>
    intro P k hk
    rw [List.foldl_cons, ih _ k hk, upd_ne]
    intro hEq
    rcases hk with h1 | h1 <;> rw [hEq] at h1 <;> exact h1 rfl

theorem lexfold_not_mem (i : Nat) (X : String) :
    ∀ (l : List (String × ℚ)) (P : PTable), X ∉ l.map Prod.fst →
      (l.foldl (fun P Xp => upd P (Xp.1, i, 1) Xp.2) P) (X, i, 1) = P (X, i, 1) := by
  intro l
  induction l with
  | nil => intro P _; rfl
  | cons Xp l ih =>
    intro P hX
    rw [List.map_cons] at hX
    rw [List.foldl_cons, ih _ (fun h => hX (List.mem_cons_of_mem _ h)), upd_ne]
    intro hEq
    refine hX ?_
    rw [show Xp.1 = X from (Prod.mk.injEq _ _ _ _ ▸ hEq.symm).1]
    exact List.mem_cons_self _ _

theorem lexfold_at (i : Nat) (X : String) (p : ℚ) :
    ∀ (l : List (String × ℚ)) (P : PTable), (l.map Prod.fst).Nodup → (X, p) ∈ l →
      (l.foldl (fun P Xp => upd P (Xp.1, i, 1) Xp.2) P) (X, i, 1) = p := by
  intro l
  induction l with
  | nil => intro P _ h; exact absurd h (List.not_mem_nil _)
  | cons Xp l ih =>
    intro P hnd hmem
    rw [List.map_cons, List.nodup_cons] at hnd
    rcases List.mem_cons.mp hmem with h1 | h1
    · rw [List.foldl_cons]
      have hX : Xp.1 = X := by rw [← h1]
      have hp : Xp.2 = p := by rw [← h1]
      rw [lexfold_not_mem i X l _ (by rw [← hX]; exact hnd.1), hX, hp, upd_self]
    · exact ih _ hnd.2 h1

theorem lex_pass_ne (pg : PGrammar) :
    ∀ (ws : List String) (i0 : Nat) (P : PTable) (k : String × Nat × Nat),
      (k.2.2 ≠ 1 ∨ k.2.1 < i0) → lex_pass pg ws i0 P k = P k := by
  intro ws
  induction ws with
  | nil => intro i0 P k _; rfl
  | cons w ws ih =>
    intro i0 P k hk
    rw [lex_pass]
    rw [ih (i0+1) _ k (by rcases hk with h | h; exacts [Or.inl h, Or.inr (by omega)])]
    refine lexfold_ne i0 _ P k ?_
    rcases hk with h | h
    · exact Or.inr h
    · exact Or.inl (by omega)

/-- The lexical loop leaves `P[X, i0+i, 1] = p` for the category assignment
`(X, p)` of the `i`-th word, provided the word's category keys are distinct. -/
theorem lex_pass_at (pg : PGrammar) :
    ∀ (ws : List String) (i0 i : Nat) (P : PTable) (w : String) (X : String) (p : ℚ),
      ws.get? i = some w → (X, p) ∈ pg.categories w →
      ((pg.categories w).map Prod.fst).Nodup →
      lex_pass pg ws i0 P (X, i0 + i, 1) = p := by
  intro ws
  induction ws with
  | nil => intro i0 i P w X p h _ _; cases i <;> exact Option.noConfusion h
  | cons w0 ws ih =>
    intro i0 i P w X p h hmem hnd
    cases i with
    | zero =>
      have hw : w0 = w := Option.some.inj h
      rw [lex_pass, lex_pass_ne pg ws (i0+1) _ (X, i0 + 0, 1)
        (Or.inr (by show i0 + 0 < i0 + 1; omega))]
      rw [show i0 + 0 = i0 from rfl]
      exact lexfold_at i0 X p _ P (hw ▸ hnd) (hw ▸ hmem)
    | succ i =>
      rw [lex_pass, show i0 + (i + 1) = (i0 + 1) + i by omega]
      exact ih (i0+1) i _ w X p h hmem hnd

theorem rulefold_ne (s len1 len2 L : Nat) :
    ∀ (rs : List (String × String × String × ℚ)) (P : PTable) (k : String × Nat × Nat),
      (k.2.2 ≠ L ∨ k.2.1 ≠ s) →
      (rs.foldl (rule_step s len1 len2 L) P) k = P k := by
  intro rs
  induction rs with
  | nil => intro P k _; rfl
  | cons r rs ih =>
    intro P k hk
    rw [List.foldl_cons, ih _ k hk, rule_step, upd_ne]
    intro hEq
    rcases hk with h1 | h1 <;> rw [hEq] at h1 <;> exact h1 rfl

/-- Accumulation of the rule loop at a fixed split: the cell `(X, s, L)` folds
`max` over the products of the rules whose lhs is `X` (products read from the
reference table `P0`, which the loop's reads agree with off length `L`), and
cells off length `L` are untouched. -/
theorem rulefold_acc (s len1 len2 L : Nat) (hl1 : len1 ≠ L) (hl2 : len2 ≠ L)
    (X : String) (P0 : PTable) :
    ∀ (rs : List (String × String × String × ℚ)) (P : PTable),
      (∀ k, k.2.2 ≠ L → P k = P0 k) →
      ((rs.foldl (rule_step s len1 len2 L) P) (X, s, L)
          = List.foldl max (P (X, s, L))
              ((rs.filter (fun r => r.1 == X)).map
                (fun r => P0 (r.2.1, s, len1) * P0 (r.2.2.1, s + len1, len2) * r.2.2.2))) ∧
      (∀ k, k.2.2 ≠ L → (rs.foldl (rule_step s len1 len2 L) P) k = P0 k) := by
  intro rs
  induction rs with
  | nil => intro P hagr; exact ⟨rfl, hagr⟩
  | cons r rs ih =>
    intro P hagr
    have hv1 : P (r.2.1, s, len1) = P0 (r.2.1, s, len1) := hagr _ hl1
    have hv2 : P (r.2.2.1, s + len1, len2) = P0 (r.2.2.1, s + len1, len2) := hagr _ hl2
    have hagr1 : ∀ k, k.2.2 ≠ L → rule_step s len1 len2 L P r k = P0 k := by
      intro k hk
      rw [rule_step, upd_ne _ _ _ k (by intro hEq; rw [hEq] at hk; exact hk rfl)]
      exact hagr k hk
    rw [List.foldl_cons]
    rcases ih (rule_step s len1 len2 L P r) hagr1 with ⟨hval, hpres⟩
    refine ⟨?_, hpres⟩
    rw [hval]
    by_cases hx : (r.1 == X) = true
    · have hfil : List.filter (fun r => r.1 == X) (r :: rs)
          = r :: List.filter (fun r => r.1 == X) rs := by
        rw [List.filter_cons]
        simp [hx]
      rw [hfil, List.map_cons, List.foldl_cons]
      congr 1
      have hrx : r.1 = X := by simpa using hx
      rw [rule_step, hrx, upd_self, hv1, hv2]
    · have hfil : List.filter (fun r => r.1 == X) (r :: rs)
          = List.filter (fun r => r.1 == X) rs := by
        rw [List.filter_cons]
        simp [hx]
      rw [hfil]
      congr 1
      have hrx : r.1 ≠ X := by simpa using hx
      rw [rule_step, upd_ne]
      intro hEq
      exact hrx (congrArg Prod.fst hEq).symm

theorem len1fold_acc (pg : PGrammar) (s L : Nat) (X : String) (P0 : PTable) :
    ∀ (ls : List Nat) (P : PTable),
      (∀ k, k.2.2 ≠ L → P k = P0 k) →
      (∀ l1 ∈ ls, l1 ≠ L ∧ L - l1 ≠ L) →
      ((ls.foldl (fun P l1 => rule_pass pg s l1 (L - l1) L P) P) (X, s, L)
          = List.foldl max (P (X, s, L))
              (ls.flatMap (fun l1 =>
                (pg.cnf_rules.filter (fun r => r.1 == X)).map
                  (fun r => P0 (r.2.1, s, l1) * P0 (r.2.2.1, s + l1, L - l1) * r.2.2.2)))) ∧
      (∀ k, k.2.2 ≠ L →
        (ls.foldl (fun P l1 => rule_pass pg s l1 (L - l1) L P) P) k = P0 k) := by
  intro ls
  induction ls with
  | nil => intro P hagr _; exact ⟨rfl, hagr⟩
  | cons l1 ls ih =>
    intro P hagr hls
    obtain ⟨h1, h2⟩ := hls l1 (List.mem_cons_self _ _)
    rw [List.foldl_cons]
    rcases rulefold_acc s l1 (L - l1) L h1 h2 X P0 pg.cnf_rules P hagr with ⟨hval, hpres⟩
    rcases ih (rule_pass pg s l1 (L - l1) L P) hpres
      (fun l hl => hls l (List.mem_cons_of_mem _ hl)) with ⟨hval2, hpres2⟩
    refine ⟨?_, hpres2⟩
    rw [hval2]
    show List.foldl max ((pg.cnf_rules.foldl (rule_step s l1 (L - l1) L) P) (X, s, L)) _ = _
    rw [hval, List.flatMap_cons, List.foldl_append]

theorem len1_pass_ne (pg : PGrammar) (s L : Nat) :
    ∀ (P : PTable) (k : String × Nat × Nat), (k.2.2 ≠ L ∨ k.2.1 ≠ s) →
      len1_pass pg s L P k = P k := by
  have hgen : ∀ (ls : List Nat) (P : PTable) (k : String × Nat × Nat),
      (k.2.2 ≠ L ∨ k.2.1 ≠ s) →
      (ls.foldl (fun P l1 => rule_pass pg s l1 (L - l1) L P) P) k = P k := by
    intro ls
    induction ls with
    | nil => intro P k _; rfl
    | cons l1 ls ih =>
      intro P k hk
      rw [List.foldl_cons, ih _ k hk]
      exact rulefold_ne s l1 (L - l1) L pg.cnf_rules P k hk
  intro P k hk
  exact hgen _ P k hk

theorem start_fold_ne (pg : PGrammar) (L : Nat) :
    ∀ (ss : List Nat) (P : PTable) (k : String × Nat × Nat),
      (k.2.2 ≠ L ∨ k.2.1 ∉ ss) →
      (ss.foldl (fun P s => len1_pass pg s L P) P) k = P k := by
  intro ss
  induction ss with
  | nil => intro P k _; rfl
  | cons s0 ss ih =>
    intro P k hk
    have hk1 : k.2.2 ≠ L ∨ k.2.1 ∉ ss := by
      rcases hk with h | h
      · exact Or.inl h
      · exact Or.inr (fun hm => h (List.mem_cons_of_mem _ hm))
    have hk2 : k.2.2 ≠ L ∨ k.2.1 ≠ s0 := by
      rcases hk with h | h
      · exact Or.inl h
      · exact Or.inr (fun hm => h (by rw [hm]; exact List.mem_cons_self _ _))
    rw [List.foldl_cons, ih _ k hk1]
    exact len1_pass_ne pg s0 L P k hk2

theorem start_pass_ne (pg : PGrammar) (N L : Nat) (P : PTable)
    (k : String × Nat × Nat) (hk : k.2.2 ≠ L) : start_pass pg N L P k = P k :=
  start_fold_ne pg L _ P k (Or.inl hk)

/-- The start loop at length `L` leaves cell `(X, s, L)` equal to the fold of
`max` over the candidate products, computed against a reference table the
incoming table agrees with off length `L`. -/
theorem start_fold_val (pg : PGrammar) (L : Nat) (X : String) (s : Nat) (P0 : PTable) :
    ∀ (ss : List Nat) (P : PTable),
      (∀ k, k.2.2 ≠ L → P k = P0 k) → s ∈ ss → ss.Nodup →
      (∀ l1 ∈ List.range' 1 (L - 1), l1 ≠ L ∧ L - l1 ≠ L) →
      (ss.foldl (fun P s' => len1_pass pg s' L P) P) (X, s, L)
        = List.foldl max (P (X, s, L)) (cand_list pg P0 s L X) := by
  intro ss
  induction ss with
  | nil => intro P _ h _ _; exact absurd h (List.not_mem_nil _)
  | cons s0 ss ih =>
    intro P hagr hmem hnd hrange
    rw [List.nodup_cons] at hnd
    rw [List.foldl_cons]
    rcases List.mem_cons.mp hmem with h1 | h1
    · subst h1
      rw [start_fold_ne pg L ss _ (X, s, L) (Or.inr hnd.1)]
      rcases len1fold_acc pg s L X P0 (List.range' 1 (L - 1)) P hagr hrange with ⟨hval, -⟩
      rw [cand_list]
      exact hval
    · have hne : s ≠ s0 := fun hEq => hnd.1 (hEq ▸ h1)
      have hbase : len1_pass pg s0 L P (X, s, L) = P (X, s, L) :=
        len1_pass_ne pg s0 L P _ (Or.inr hne)
      rw [← hbase]
      refine ih (len1_pass pg s0 L P) ?_ h1 hnd.2 hrange
      intro k hk
      rw [len1_pass_ne pg s0 L P k (Or.inl hk)]
      exact hagr k hk

theorem length_fold_ne (pg : PGrammar) (N : Nat) :
    ∀ (Ls : List Nat) (P : PTable) (k : String × Nat × Nat),
      (∀ L' ∈ Ls, k.2.2 ≠ L') →
      (Ls.foldl (fun P length => start_pass pg N length P) P) k = P k := by
  intro Ls
  induction Ls with
  | nil => intro P k _; rfl
  | cons L0 Ls ih =>
    intro P k hk
    rw [List.foldl_cons, ih _ k (fun L' hL' => hk L' (List.mem_cons_of_mem _ hL'))]
    exact start_pass_ne pg N L0 P k (hk L0 (List.mem_cons_self _ _))

theorem cand_congr (pg : PGrammar) (s L : Nat) (X : String) (P Q : PTable)
    (h : ∀ k, k.2.2 < L → P k = Q k) : cand_list pg P s L X = cand_list pg Q s L X := by
  rw [cand_list, cand_list]
  have hgen : ∀ (ls : List Nat), (∀ l1 ∈ ls, 1 ≤ l1 ∧ l1 < L) →
      ls.flatMap (fun len1 =>
        (pg.cnf_rules.filter (fun r => r.1 == X)).map
          (fun r => P (r.2.1, s, len1) * P (r.2.2.1, s + len1, L - len1) * r.2.2.2))
      = ls.flatMap (fun len1 =>
        (pg.cnf_rules.filter (fun r => r.1 == X)).map
          (fun r => Q (r.2.1, s, len1) * Q (r.2.2.1, s + len1, L - len1) * r.2.2.2)) := by
    intro ls
    induction ls with
    | nil => intro _; rfl
    | cons l1 ls ih =>
      intro hls
      obtain ⟨ha, hb⟩ := hls l1 (List.mem_cons_self _ _)
      rw [List.flatMap_cons, List.flatMap_cons,
        ih (fun l hl => hls l (List.mem_cons_of_mem _ hl))]
      congr 1
      refine List.map_congr_left ?_
      intro r _
      rw [h (r.2.1, s, l1) (by show l1 < L; omega),
        h (r.2.2.1, s + l1, L - l1) (by show L - l1 < L; omega)]
  refine hgen _ ?_
  intro l1 hl
  rw [List.mem_range'_1] at hl
  omega

/-- Claim C4: under the assumed interface (`categories` yielding `(X, p)`
pairs — one per category `X`, as "each category" requires — and `cnf_rules()`
yielding `(X, Y, Z, p)` quadruples), `CYK_parse` returns the table `P` with
`P[X, i, 1] = p` for each lexical assignment of `words[i]`, and, for every
span length from 2 to `N` and every start position, `P[X, start, length]`
equal to the maximum — with unset cells defaulting to 0 — over split points
`len1` in `1..length-1` and binary rules `X → Y Z` of
`P[Y, start, len1] * P[Z, start+len1, len2] * p`. -/
theorem claim_C4_CYK (pg : PGrammar) (words : List String)
    (hnd : ∀ w, ((pg.categories w).map Prod.fst).Nodup) :
    (∀ (i : Nat) (w X : String) (p : ℚ),
      words.get? i = some w → (X, p) ∈ pg.categories w →
      CYK_parse pg words (X, i, 1) = p) ∧
    (∀ (L s : Nat) (X : String), 2 ≤ L → L ≤ words.length → s + L ≤ words.length →
      CYK_parse pg words (X, s, L)
        = (cand_list pg (CYK_parse pg words) s L X).foldl max 0) := by
  constructor
  · intro i w X p hw hmem
    show (List.range' 2 (words.length - 1)).foldl
        (fun P length => start_pass pg words.length length P)
        (lex_pass pg words 0 (fun _ => 0)) (X, i, 1) = p
    rw [length_fold_ne pg words.length _ _ (X, i, 1)
      (fun L' hL' => by rw [List.mem_range'_1] at hL'; show (1 : Nat) ≠ L'; omega)]
    rw [show ((X, i, 1) : String × Nat × Nat) = (X, 0 + i, 1) by rw [Nat.zero_add]]
    exact lex_pass_at pg words 0 i _ w X p hw hmem (hnd w)
  · intro L s X hL2 hLN hsLN
    have hsplit : List.range' 2 (words.length - 1)
        = List.range' 2 (L - 2) ++ L :: List.range' (L + 1) (words.length - L) := by
      have h1 := List.range'_append 2 (L - 2) (words.length - L + 1) 1
      rw [show 2 + 1 * (L - 2) = L by omega,
        show (words.length - L + 1) + (L - 2) = words.length - 1 by omega] at h1
      rw [← h1]
      congr 1
    have hfin : CYK_parse pg words
        = (List.range' (L + 1) (words.length - L)).foldl
            (fun P length => start_pass pg words.length length P)
            (start_pass pg words.length L
              ((List.range' 2 (L - 2)).foldl
                (fun P length => start_pass pg words.length length P)
                (lex_pass pg words 0 (fun _ => 0)))) := by
      show (List.range' 2 (words.length - 1)).foldl
          (fun P length => start_pass pg words.length length P)
          (lex_pass pg words 0 (fun _ => 0)) = _
      rw [hsplit, List.foldl_append, List.foldl_cons]
    set Pb := (List.range' 2 (L - 2)).foldl
        (fun P length => start_pass pg words.length length P)
        (lex_pass pg words 0 (fun _ => 0)) with hPbdef
    have hPbL : Pb (X, s, L) = 0 := by
      rw [hPbdef]
      rw [length_fold_ne pg words.length _ _ (X, s, L)
        (fun L' hL' => by rw [List.mem_range'_1] at hL'; show L ≠ L'; omega)]
      rw [lex_pass_ne pg words 0 _ (X, s, L) (Or.inl (by show L ≠ 1; omega))]
    have hrange : ∀ l1 ∈ List.range' 1 (L - 1), l1 ≠ L ∧ L - l1 ≠ L := by
      intro l1 hl
      rw [List.mem_range'_1] at hl
      omega
    have hval : start_pass pg words.length L Pb (X, s, L)
        = List.foldl max (Pb (X, s, L)) (cand_list pg Pb s L X) := by
      show (List.range (words.length - L + 1)).foldl
          (fun P start => len1_pass pg start L P) Pb (X, s, L) = _
      exact start_fold_val pg L X s Pb _ Pb (fun k _ => rfl)
        (List.mem_range.mpr (by omega)) (List.nodup_range _) hrange
    have hafter : ∀ (k : String × Nat × Nat), k.2.2 ≤ L →
        CYK_parse pg words k = start_pass pg words.length L Pb k := by
      intro k hk
      rw [hfin]
      refine length_fold_ne pg words.length _ _ k ?_
      intro L' hL'
      rw [List.mem_range'_1] at hL'
      omega
    have hreads : ∀ (k : String × Nat × Nat), k.2.2 < L → CYK_parse pg words k = Pb k := by
      intro k hk
      rw [hafter k (Nat.le_of_lt hk)]
      exact start_pass_ne pg words.length L Pb k (by omega)
    rw [hafter (X, s, L) (by show L ≤ L; omega), hval, hPbL,
      cand_congr pg s L X (CYK_parse pg words) Pb hreads]

/-- Claim C4 witness: the two-word CNF grammar `S → A B (1/4)` with lexical
assignments `a : A (1/2)` and `b : B (1/3)`; the base case fills
`P[A, 0, 1] = 1/2`, and the length-2 cell satisfies the max-product
recurrence. -/
theorem claim_C4_witness :
    CYK_parse
        ⟨fun w => if w = "a" then [("A", (1 : ℚ)/2)]
          else if w = "b" then [("B", (1 : ℚ)/3)] else [],
         [("S", "A", "B", (1 : ℚ)/4)]⟩ ["a", "b"] ("A", 0, 1) = (1 : ℚ)/2 ∧
    CYK_parse
        ⟨fun w => if w = "a" then [("A", (1 : ℚ)/2)]
          else if w = "b" then [("B", (1 : ℚ)/3)] else [],
         [("S", "A", "B", (1 : ℚ)/4)]⟩ ["a", "b"] ("S", 0, 2)
      = (cand_list
          ⟨fun w => if w = "a" then [("A", (1 : ℚ)/2)]
            else if w = "b" then [("B", (1 : ℚ)/3)] else [],
           [("S", "A", "B", (1 : ℚ)/4)]⟩
          (CYK_parse
            ⟨fun w => if w = "a" then [("A", (1 : ℚ)/2)]
              else if w = "b" then [("B", (1 : ℚ)/3)] else [],
             [("S", "A", "B", (1 : ℚ)/4)]⟩ ["a", "b"]) 0 2 "S").foldl max 0 := by
  have hnd : ∀ w,
      ((PGrammar.categories
        ⟨fun w => if w = "a" then [("A", (1 : ℚ)/2)]
          else if w = "b" then [("B", (1 : ℚ)/3)] else [],
         [("S", "A", "B", (1 : ℚ)/4)]⟩ w).map Prod.fst).Nodup := by
    intro w
    by_cases h1 : w = "a"
    · simp [h1]
    · by_cases h2 : w = "b"
      · simp [h1, h2]
      · simp [h1, h2]
  exact ⟨(claim_C4_CYK _ ["a", "b"] hnd).1 0 "a" "A" ((1 : ℚ)/2) rfl (by simp),
    (claim_C4_CYK _ ["a", "b"] hnd).2 2 0 "S" (by omega) (by simp) (by simp)⟩

end NLP
